import Mathlib

/-!
Verification of the core of jiwer (jiwer/process.py): the word-to-integer
vocabulary mapping, the Levenshtein alignment engine (modelled from the
design spec, section 4.2, since the backing rapidfuzz library is external
to the repository), opcode/chunk construction, and the WER/MER/WIP/WIL
measure computation of `process_words`.  Python floats are modelled as
exact rationals and Python exceptions with `Except`.
-/

namespace Jiwer

/-- Tag of an alignment operation.  The source stores string tags and
normalizes the rapidfuzz tag `replace` to `substitute` in
`AlignmentChunk.__post_init__`; the design notes recommend an enum. -/
inductive Tag where
  | equal
  | substitute
  | insert
  | delete
deriving DecidableEq

/-- Mirrors `jiwer.process.AlignmentChunk`: a typed span with half-open
index ranges into the reference and hypothesis sequences. -/
structure AlignmentChunk where
  type : Tag
  ref_start_idx : Nat
  ref_end_idx : Nat
  hyp_start_idx : Nat
  hyp_end_idx : Nat
deriving DecidableEq

/-- Errors raised by `process_words`: `ValueError` for the three
validation failures and `ZeroDivisionError` for the unguarded float
division computing `wer`. -/
inductive JiwerError where
  | emptyReferenceString
  | invalidReferenceTransform
  | lengthMismatch
  | zeroDivision
deriving DecidableEq

/-- Mirrors `jiwer.process.WordOutput`, generalized over the token type
(Python is untyped; `process_words` instantiates tokens as strings). -/
structure WordOutput (α : Type) where
  references : List (List α)
  hypotheses : List (List α)
  alignments : List (List AlignmentChunk)
  wer : ℚ
  mer : ℚ
  wil : ℚ
  wip : ℚ
  hits : Nat
  substitutions : Nat
  insertions : Nat
  deletions : Nat
deriving DecidableEq

deriving instance DecidableEq for Except

variable {α : Type} [DecidableEq α]

/-- Association-list lookup, modelling a Python dict lookup. -/
def findId : List (α × Nat) → α → Option Nat
  | [], _ => none
  | (k, v) :: m, w => if k = w then some v else findId m w

/-- Mirrors the auto-incrementing `defaultdict` of `_word2int`
(src/src/jiwer/process.py): a word not yet in the mapping is assigned
the next id, namely the current size of the mapping. -/
def assignId (m : List (α × Nat)) (w : α) : List (α × Nat) × Nat :=
  match findId m w with
  | some i => (m, i)
  | none => (m ++ [(w, m.length)], m.length)

/-- Encode one sentence, threading the growing word-to-id mapping. -/
def encodeSentence : List (α × Nat) → List α → List (α × Nat) × List Nat
  | m, [] => (m, [])
  | m, w :: ws =>
    let p := assignId m w
    let q := encodeSentence p.1 ws
    (q.1, p.2 :: q.2)

/-- Encode a corpus sentence by sentence, threading the mapping. -/
def encodeCorpus : List (α × Nat) → List (List α) → List (α × Nat) × List (List Nat)
  | m, [] => (m, [])
  | m, s :: ss =>
    let p := encodeSentence m s
    let q := encodeCorpus p.1 ss
    (q.1, p.2 :: q.2)

/-- Mirrors `_word2int` (src/src/jiwer/process.py): map every distinct
word to a unique integer id, passing first over all reference sentences
and then over all hypothesis sentences.  There is no bound tied to a
character-code range, and no check for empty-string tokens. -/
def word2int (reference hypothesis : List (List α)) :
    List (List Nat) × List (List Nat) :=
  let p := encodeCorpus ([] : List (α × Nat)) reference
  let q := encodeCorpus p.1 hypothesis
  (p.2, q.2)

/-- Modelled from the spec: fuel-indexed Wagner-Fischer edit distance
(spec section 4.2); the rapidfuzz Levenshtein backend is external to the
repository.  The fuel argument only makes the recursion structural;
`levDist` supplies enough fuel, making the zero-fuel branch unreachable. -/
def levDistF : Nat → List α → List α → Nat
  | _, [], ys => ys.length
  | _, _ :: xs, [] => xs.length + 1
  | 0, _ :: _, _ :: _ => 0
  | f + 1, x :: xs, y :: ys =>
    if x = y then levDistF f xs ys
    else 1 + min (levDistF f xs ys)
      (min (levDistF f (x :: xs) ys) (levDistF f xs (y :: ys)))

/-- Modelled from the spec: Levenshtein distance with unit costs. -/
def levDist (xs ys : List α) : Nat :=
  levDistF (xs.length + ys.length) xs ys

/-- Modelled from the spec: the backtraced per-position edit script
(spec section 4.2), with the documented tie-break preferring the
diagonal (equal/substitute) over insert over delete on cost ties. -/
def levTraceF : Nat → List α → List α → List Tag
  | _, [], ys => ys.map fun _ => Tag.insert
  | _, _ :: xs, [] => Tag.delete :: xs.map fun _ => Tag.delete
  | 0, _ :: _, _ :: _ => []
  | f + 1, x :: xs, y :: ys =>
    if x = y then Tag.equal :: levTraceF f xs ys
    else
      let ds := levDist xs ys
      let di := levDist (x :: xs) ys
      let dd := levDist xs (y :: ys)
      if ds ≤ di ∧ ds ≤ dd then Tag.substitute :: levTraceF f xs ys
      else if di ≤ dd then Tag.insert :: levTraceF f (x :: xs) ys
      else Tag.delete :: levTraceF f xs (y :: ys)

/-- Modelled from the spec: the edit script for a sentence pair. -/
def levTrace (xs ys : List α) : List Tag :=
  levTraceF (xs.length + ys.length) xs ys

/-- How far one operation of the given tag advances in the reference. -/
def tagRef : Tag → Nat
  | .equal => 1
  | .substitute => 1
  | .delete => 1
  | .insert => 0

/-- How far one operation of the given tag advances in the hypothesis. -/
def tagHyp : Tag → Nat
  | .equal => 1
  | .substitute => 1
  | .insert => 1
  | .delete => 0

/-- Unit cost of one operation of the given tag. -/
def tagCost : Tag → Nat
  | .equal => 0
  | _ => 1

/-- The chunk covering a run of `n` operations of tag `t` starting at
reference index `i` and hypothesis index `j`. -/
def mkChunk (t : Tag) (n i j : Nat) : AlignmentChunk :=
  ⟨t, i, i + n * tagRef t, j, j + n * tagHyp t⟩

/-- Run-length encoding worker: `t` is the tag of the current run, `n`
its length so far, `i`/`j` the indices where the run started. -/
def rleGo : Tag → Nat → Nat → Nat → List Tag → List AlignmentChunk
  | t, n, i, j, [] => [mkChunk t n i j]
  | t, n, i, j, u :: rest =>
    if u = t then rleGo t (n + 1) i j rest
    else mkChunk t n i j ::
      rleGo u 1 (i + n * tagRef t) (j + n * tagHyp t) rest

/-- Modelled from the spec: run-length-encode the edit script into
maximal chunks with contiguous index ranges (the rapidfuzz
`Levenshtein.opcodes` step, external to the repository); zero-length
chunks are never emitted. -/
def toChunks (i j : Nat) : List Tag → List AlignmentChunk
  | [] => []
  | t :: rest => rleGo t 1 i j rest

/-- The opcode chunks aligning one encoded reference sentence with one
encoded hypothesis sentence. -/
def sentenceChunks (r h : List Nat) : List AlignmentChunk :=
  toChunks 0 0 (levTrace r h)

/-- Hits counted from chunk spans, as the `tag == "equal"` branch of the
counting loop in `process_words` does. -/
def hitsOf (cs : List AlignmentChunk) : Nat :=
  (cs.map fun c =>
    if c.type = Tag.equal then c.ref_end_idx - c.ref_start_idx else 0).sum

/-- Substitutions counted from chunk spans (`tag == "replace"` branch). -/
def subsOf (cs : List AlignmentChunk) : Nat :=
  (cs.map fun c =>
    if c.type = Tag.substitute then c.ref_end_idx - c.ref_start_idx else 0).sum

/-- Deletions counted from chunk spans (`tag == "delete"` branch). -/
def delsOf (cs : List AlignmentChunk) : Nat :=
  (cs.map fun c =>
    if c.type = Tag.delete then c.ref_end_idx - c.ref_start_idx else 0).sum

/-- Insertions counted from chunk spans (`tag == "insert"` branch,
which measures the hypothesis-side span). -/
def insOf (cs : List AlignmentChunk) : Nat :=
  (cs.map fun c =>
    if c.type = Tag.insert then c.hyp_end_idx - c.hyp_start_idx else 0).sum

/-- The integer-encoded reference corpus inside `processWordsCore`. -/
def refIds (refT hypT : List (List α)) : List (List Nat) :=
  (word2int refT hypT).1

/-- The integer-encoded hypothesis corpus inside `processWordsCore`. -/
def hypIds (refT hypT : List (List α)) : List (List Nat) :=
  (word2int refT hypT).2

/-- The zipped sentence pairs the counting loop iterates over. -/
def corpusPairs (refT hypT : List (List α)) : List (List Nat × List Nat) :=
  (refIds refT hypT).zip (hypIds refT hypT)

/-- The per-sentence-pair alignments accumulated by the loop. -/
def corpusAligns (refT hypT : List (List α)) : List (List AlignmentChunk) :=
  (corpusPairs refT hypT).map fun p => sentenceChunks p.1 p.2

/-- `num_hits` at the end of the loop. -/
def totH (refT hypT : List (List α)) : Nat :=
  ((corpusAligns refT hypT).map hitsOf).sum

/-- `num_substitutions` at the end of the loop. -/
def totS (refT hypT : List (List α)) : Nat :=
  ((corpusAligns refT hypT).map subsOf).sum

/-- `num_deletions` at the end of the loop. -/
def totD (refT hypT : List (List α)) : Nat :=
  ((corpusAligns refT hypT).map delsOf).sum

/-- `num_insertions` at the end of the loop. -/
def totI (refT hypT : List (List α)) : Nat :=
  ((corpusAligns refT hypT).map insOf).sum

/-- `num_rf_words` at the end of the loop. -/
def totR (refT hypT : List (List α)) : Nat :=
  ((corpusPairs refT hypT).map fun p => p.1.length).sum

/-- `num_hp_words` at the end of the loop. -/
def totP (refT hypT : List (List α)) : Nat :=
  ((corpusPairs refT hypT).map fun p => p.2.length).sum

/-- The `wip` value computed by `process_words`. -/
def wipVal (refT hypT : List (List α)) : ℚ :=
  if 1 ≤ totP refT hypT then
    ((totH refT hypT : ℚ) / (totR refT hypT : ℚ)) *
      ((totH refT hypT : ℚ) / (totP refT hypT : ℚ))
  else 0

/-- Total number of tokens of a corpus. -/
def numTokens (c : List (List α)) : Nat := (c.map List.length).sum

/-- The final word-to-id mapping built during `word2int`. -/
def finalMap (refT hypT : List (List α)) : List (α × Nat) :=
  (encodeCorpus (encodeCorpus ([] : List (α × Nat)) refT).1 hypT).1

/-- The success output of `processWordsCore`, spelled with the named
corpus-level quantities. -/
def coreOutput (refT hypT : List (List α)) : WordOutput α :=
  { references := refT
    hypotheses := hypT
    alignments := corpusAligns refT hypT
    wer := ((totS refT hypT + totD refT hypT + totI refT hypT : Nat) : ℚ) /
      ((totH refT hypT + totS refT hypT + totD refT hypT : Nat) : ℚ)
    mer := ((totS refT hypT + totD refT hypT + totI refT hypT : Nat) : ℚ) /
      ((totH refT hypT + totS refT hypT + totD refT hypT +
        totI refT hypT : Nat) : ℚ)
    wil := 1 - wipVal refT hypT
    wip := wipVal refT hypT
    hits := totH refT hypT
    substitutions := totS refT hypT
    insertions := totI refT hypT
    deletions := totD refT hypT }

/-- Mirrors `process_words` (src/src/jiwer/process.py) from the point
where the transforms have been applied: shape validation of the
reference side, the sentence-count check, word-to-int encoding,
per-sentence-pair alignment and counting, and the measures.  The Python
float divisions are modelled over ℚ; the unguarded division computing
`wer` raises `ZeroDivisionError` exactly when hits + substitutions +
deletions is zero, which the model surfaces as an error value. -/
def processWordsCore (refT hypT : List (List α)) :
    Except JiwerError (WordOutput α) :=
  if refT.any List.isEmpty then .error .invalidReferenceTransform
  else if refT.length ≠ hypT.length then .error .lengthMismatch
  else if totH refT hypT + totS refT hypT + totD refT hypT = 0 then
    .error .zeroDivision
  else .ok (coreOutput refT hypT)

/-- Mirrors `process_words` (src/src/jiwer/process.py) end to end for
list-of-strings input (the source wraps a lone string `s` as `[s]`
before this point).  The normalization transforms are the external
collaborator and are passed as functions; the hypothesis-side shape
validation checks only typing, which the embedding's types discharge. -/
def process_words (reference hypothesis : List String)
    (reference_transform hypothesis_transform :
      List String → List (List String)) :
    Except JiwerError (WordOutput String) :=
  if reference.any (fun t => t.length == 0) then .error .emptyReferenceString
  else
    processWordsCore (reference_transform reference)
      (hypothesis_transform hypothesis)

/-- A minimal transform for concrete runs: each raw sentence becomes a
one-token sentence. -/
def splitT : List String → List (List String) :=
  fun ss => ss.map fun s => [s]

/-- The output of `process_words ["a"] ["b"]` under `splitT`. -/
def wordsAB : WordOutput String :=
  { references := [["a"]]
    hypotheses := [["b"]]
    alignments := [[⟨Tag.substitute, 0, 1, 0, 1⟩]]
    wer := 1
    mer := 1
    wil := 1
    wip := 0
    hits := 0
    substitutions := 1
    insertions := 0
    deletions := 0 }

/-- The output of `process_words ["a"] ["a"]` under `splitT`. -/
def wordsAA : WordOutput String :=
  { references := [["a"]]
    hypotheses := [["a"]]
    alignments := [[⟨Tag.equal, 0, 1, 0, 1⟩]]
    wer := 0
    mer := 0
    wil := 0
    wip := 1
    hits := 1
    substitutions := 0
    insertions := 0
    deletions := 0 }

/-- Total reference-side advance of an edit script. -/
def sumTagRef (l : List Tag) : Nat := (l.map tagRef).sum

/-- Total hypothesis-side advance of an edit script. -/
def sumTagHyp (l : List Tag) : Nat := (l.map tagHyp).sum

/-- Total cost of an edit script. -/
def costTags (l : List Tag) : Nat := (l.map tagCost).sum

/-- Number of operations with the given tag in an edit script. -/
def countTag (t : Tag) : List Tag → Nat
  | [] => 0
  | u :: l => (if u = t then 1 else 0) + countTag t l

/-- Sum of the reference-side span lengths of a chunk list. -/
def sumRefSpans (cs : List AlignmentChunk) : Nat :=
  (cs.map fun c => c.ref_end_idx - c.ref_start_idx).sum

/-- Sum of the hypothesis-side span lengths of a chunk list. -/
def sumHypSpans (cs : List AlignmentChunk) : Nat :=
  (cs.map fun c => c.hyp_end_idx - c.hyp_start_idx).sum

/-- `chainedFrom i j cs n m` holds when the chunks `cs`, in order, start
exactly at indices `(i, j)`, are contiguous on both sides (each chunk
starts where the previous one ended, with no gaps or overlaps and
well-ordered spans), and end exactly at `(n, m)`. -/
def chainedFrom : Nat → Nat → List AlignmentChunk → Nat → Nat → Bool
  | i, j, [], n, m => i == n && j == m
  | i, j, c :: cs, n, m =>
    c.ref_start_idx == i && c.hyp_start_idx == j &&
      decide (i ≤ c.ref_end_idx) && decide (j ≤ c.hyp_end_idx) &&
      chainedFrom c.ref_end_idx c.hyp_end_idx cs n m

/-- The `wer` field of a successful result, `none` on an error. -/
def werOf (r : Except JiwerError (WordOutput α)) : Option ℚ :=
  r.toOption.map WordOutput.wer

/-- Whether a result is a success (no Python exception was raised). -/
def resultOk (r : Except JiwerError (WordOutput α)) : Bool :=
  match r with
  | .ok _ => true
  | .error _ => false


theorem levDistF_congr :
    ∀ (f g : Nat) (xs ys : List α), xs.length + ys.length ≤ f →
      xs.length + ys.length ≤ g → levDistF f xs ys = levDistF g xs ys := by
  intro f
  induction f with
  | zero =>
    intro g xs ys hf _
    match xs, ys with
    | [], ys => simp [levDistF]
    | x :: xs, [] => simp [levDistF]
    | x :: xs, y :: ys => simp [List.length_cons] at hf
  | succ f ih =>
    intro g xs ys hf hg
    match xs, ys with
    | [], ys => simp [levDistF]
    | x :: xs, [] => simp [levDistF]
    | x :: xs, y :: ys =>
      cases g with
      | zero => simp [List.length_cons] at hg
      | succ g =>
        simp only [List.length_cons] at hf hg
        simp only [levDistF]
        rw [ih g xs ys (by omega) (by omega),
          ih g (x :: xs) ys (by simp only [List.length_cons]; omega)
            (by simp only [List.length_cons]; omega),
          ih g xs (y :: ys) (by simp only [List.length_cons]; omega)
            (by simp only [List.length_cons]; omega)]

theorem levDist_nil_left (ys : List α) : levDist [] ys = ys.length := by
  simp [levDist, levDistF]

theorem levDist_cons_nil (x : α) (xs : List α) :
    levDist (x :: xs) [] = xs.length + 1 := by
  simp [levDist, levDistF]

theorem levDist_cons_cons (x y : α) (xs ys : List α) :
    levDist (x :: xs) (y :: ys) =
      if x = y then levDist xs ys
      else 1 + min (levDist xs ys)
        (min (levDist (x :: xs) ys) (levDist xs (y :: ys))) := by
  have e : (x :: xs).length + (y :: ys).length = xs.length + ys.length + 1 + 1 := by
    simp only [List.length_cons]; omega
  rw [levDist, e]
  simp only [levDistF]
  rw [levDistF_congr (xs.length + ys.length + 1) (xs.length + ys.length) xs ys
      (by omega) (by omega),
    levDistF_congr (xs.length + ys.length + 1) ((x :: xs).length + ys.length)
      (x :: xs) ys (by simp only [List.length_cons]; omega)
      (by simp only [List.length_cons]; omega),
    levDistF_congr (xs.length + ys.length + 1) (xs.length + (y :: ys).length)
      xs (y :: ys) (by simp only [List.length_cons]; omega)
      (by simp only [List.length_cons]; omega)]
  rfl

theorem levTraceF_congr :
    ∀ (f g : Nat) (xs ys : List α), xs.length + ys.length ≤ f →
      xs.length + ys.length ≤ g → levTraceF f xs ys = levTraceF g xs ys := by
  intro f
  induction f with
  | zero =>
    intro g xs ys hf _
    match xs, ys with
    | [], ys => simp [levTraceF]
    | x :: xs, [] => simp [levTraceF]
    | x :: xs, y :: ys => simp [List.length_cons] at hf
  | succ f ih =>
    intro g xs ys hf hg
    match xs, ys with
    | [], ys => simp [levTraceF]
    | x :: xs, [] => simp [levTraceF]
    | x :: xs, y :: ys =>
      cases g with
      | zero => simp [List.length_cons] at hg
      | succ g =>
        simp only [List.length_cons] at hf hg
        simp only [levTraceF]
        rw [ih g xs ys (by omega) (by omega),
          ih g (x :: xs) ys (by simp only [List.length_cons]; omega)
            (by simp only [List.length_cons]; omega),
          ih g xs (y :: ys) (by simp only [List.length_cons]; omega)
            (by simp only [List.length_cons]; omega)]

theorem levTrace_nil_left (ys : List α) :
    levTrace ([] : List α) ys = ys.map fun _ => Tag.insert := by
  simp [levTrace, levTraceF]

theorem levTrace_cons_nil (x : α) (xs : List α) :
    levTrace (x :: xs) [] = Tag.delete :: xs.map fun _ => Tag.delete := by
  simp [levTrace, levTraceF]

theorem levTrace_cons_cons (x y : α) (xs ys : List α) :
    levTrace (x :: xs) (y :: ys) =
      if x = y then Tag.equal :: levTrace xs ys
      else
        if levDist xs ys ≤ levDist (x :: xs) ys ∧
            levDist xs ys ≤ levDist xs (y :: ys) then
          Tag.substitute :: levTrace xs ys
        else if levDist (x :: xs) ys ≤ levDist xs (y :: ys) then
          Tag.insert :: levTrace (x :: xs) ys
        else Tag.delete :: levTrace xs (y :: ys) := by
  have e : (x :: xs).length + (y :: ys).length = xs.length + ys.length + 1 + 1 := by
    simp only [List.length_cons]; omega
  rw [levTrace, e]
  simp only [levTraceF]
  rw [levTraceF_congr (xs.length + ys.length + 1) (xs.length + ys.length) xs ys
      (by omega) (by omega),
    levTraceF_congr (xs.length + ys.length + 1) ((x :: xs).length + ys.length)
      (x :: xs) ys (by simp only [List.length_cons]; omega)
      (by simp only [List.length_cons]; omega),
    levTraceF_congr (xs.length + ys.length + 1) (xs.length + (y :: ys).length)
      xs (y :: ys) (by simp only [List.length_cons]; omega)
      (by simp only [List.length_cons]; omega)]
  rfl

theorem sumTagRef_cons (t : Tag) (l : List Tag) :
    sumTagRef (t :: l) = tagRef t + sumTagRef l := by
  simp [sumTagRef]

theorem sumTagHyp_cons (t : Tag) (l : List Tag) :
    sumTagHyp (t :: l) = tagHyp t + sumTagHyp l := by
  simp [sumTagHyp]

theorem costTags_cons (t : Tag) (l : List Tag) :
    costTags (t :: l) = tagCost t + costTags l := by
  simp [costTags]

theorem sumTagRef_map_const {β : Type} (l : List β) (t : Tag) :
    sumTagRef (l.map fun _ => t) = l.length * tagRef t := by
  induction l with
  | nil => simp [sumTagRef]
  | cons a l ih => simp only [List.map_cons, sumTagRef_cons, List.length_cons, ih]; ring

theorem sumTagHyp_map_const {β : Type} (l : List β) (t : Tag) :
    sumTagHyp (l.map fun _ => t) = l.length * tagHyp t := by
  induction l with
  | nil => simp [sumTagHyp]
  | cons a l ih => simp only [List.map_cons, sumTagHyp_cons, List.length_cons, ih]; ring

theorem costTags_map_const {β : Type} (l : List β) (t : Tag) :
    costTags (l.map fun _ => t) = l.length * tagCost t := by
  induction l with
  | nil => simp [costTags]
  | cons a l ih => simp only [List.map_cons, costTags_cons, List.length_cons, ih]; ring

theorem countTag_map_const {β : Type} (l : List β) (t u : Tag) :
    countTag t (l.map fun _ => u) = if u = t then l.length else 0 := by
  induction l with
  | nil => simp [countTag]
  | cons a l ih =>
    simp only [List.map_cons, countTag, List.length_cons, ih]
    split <;> omega

theorem sumTagRef_replicate (n : Nat) (t : Tag) :
    sumTagRef (List.replicate n t) = n * tagRef t := by
  induction n with
  | zero => simp [sumTagRef]
  | succ n ih => simp only [List.replicate_succ, sumTagRef_cons, ih]; ring

theorem sumTagHyp_replicate (n : Nat) (t : Tag) :
    sumTagHyp (List.replicate n t) = n * tagHyp t := by
  induction n with
  | zero => simp [sumTagHyp]
  | succ n ih => simp only [List.replicate_succ, sumTagHyp_cons, ih]; ring

theorem costTags_replicate (n : Nat) (t : Tag) :
    costTags (List.replicate n t) = n * tagCost t := by
  induction n with
  | zero => simp [costTags]
  | succ n ih => simp only [List.replicate_succ, costTags_cons, ih]; ring

theorem countTag_replicate (n : Nat) (t u : Tag) :
    countTag t (List.replicate n u) = if u = t then n else 0 := by
  induction n with
  | zero => simp [countTag]
  | succ n ih =>
    simp only [List.replicate_succ, countTag, ih]
    split <;> omega

theorem levTraceF_sumRef :
    ∀ (f : Nat) (xs ys : List α), xs.length + ys.length ≤ f →
      sumTagRef (levTraceF f xs ys) = xs.length := by
  intro f
  induction f with
  | zero =>
    intro xs ys hf
    match xs, ys with
    | [], ys => simp [levTraceF, sumTagRef_replicate, tagRef]
    | x :: xs, [] => simp [List.length_cons] at hf
    | x :: xs, y :: ys => simp [List.length_cons] at hf
  | succ f ih =>
    intro xs ys hf
    match xs, ys with
    | [], ys => simp [levTraceF, sumTagRef_replicate, tagRef]
    | x :: xs, [] =>
      simp only [levTraceF, sumTagRef_cons, tagRef]
      simp [sumTagRef_replicate, tagRef]
      omega
    | x :: xs, y :: ys =>
      simp only [List.length_cons] at hf
      simp only [levTraceF]
      by_cases hxy : x = y
      · rw [if_pos hxy, sumTagRef_cons, ih xs ys (by omega)]
        simp [tagRef]; omega
      · rw [if_neg hxy]
        split
        · rw [sumTagRef_cons, ih xs ys (by omega)]; simp [tagRef]; omega
        · split
          · rw [sumTagRef_cons,
              ih (x :: xs) ys (by simp only [List.length_cons]; omega)]
            simp [tagRef]
          · rw [sumTagRef_cons,
              ih xs (y :: ys) (by simp only [List.length_cons]; omega)]
            simp [tagRef]; omega

theorem levTraceF_sumHyp :
    ∀ (f : Nat) (xs ys : List α), xs.length + ys.length ≤ f →
      sumTagHyp (levTraceF f xs ys) = ys.length := by
  intro f
  induction f with
  | zero =>
    intro xs ys hf
    match xs, ys with
    | [], ys => simp [levTraceF, sumTagHyp_replicate, tagHyp]
    | x :: xs, [] => simp [List.length_cons] at hf
    | x :: xs, y :: ys => simp [List.length_cons] at hf
  | succ f ih =>
    intro xs ys hf
    match xs, ys with
    | [], ys => simp [levTraceF, sumTagHyp_replicate, tagHyp]
    | x :: xs, [] =>
      simp [levTraceF, sumTagHyp_cons, sumTagHyp_replicate, tagHyp]
    | x :: xs, y :: ys =>
      simp only [List.length_cons] at hf
      simp only [levTraceF]
      by_cases hxy : x = y
      · rw [if_pos hxy, sumTagHyp_cons, ih xs ys (by omega)]
        simp [tagHyp]; omega
      · rw [if_neg hxy]
        split
        · rw [sumTagHyp_cons, ih xs ys (by omega)]; simp [tagHyp]; omega
        · split
          · rw [sumTagHyp_cons,
              ih (x :: xs) ys (by simp only [List.length_cons]; omega)]
            simp [tagHyp]; omega
          · rw [sumTagHyp_cons,
              ih xs (y :: ys) (by simp only [List.length_cons]; omega)]
            simp [tagHyp]

theorem sumTagRef_levTrace (xs ys : List α) :
    sumTagRef (levTrace xs ys) = xs.length :=
  levTraceF_sumRef _ xs ys (le_refl _)

theorem sumTagHyp_levTrace (xs ys : List α) :
    sumTagHyp (levTrace xs ys) = ys.length :=
  levTraceF_sumHyp _ xs ys (le_refl _)

theorem levTraceF_cost :
    ∀ (f : Nat) (xs ys : List α), xs.length + ys.length ≤ f →
      costTags (levTraceF f xs ys) = levDist xs ys := by
  intro f
  induction f with
  | zero =>
    intro xs ys hf
    match xs, ys with
    | [], ys => simp [levTraceF, costTags_replicate, tagCost, levDist_nil_left]
    | x :: xs, [] => simp [List.length_cons] at hf
    | x :: xs, y :: ys => simp [List.length_cons] at hf
  | succ f ih =>
    intro xs ys hf
    match xs, ys with
    | [], ys => simp [levTraceF, costTags_replicate, tagCost, levDist_nil_left]
    | x :: xs, [] =>
      simp [levTraceF, costTags_cons, costTags_replicate, tagCost,
        levDist_cons_nil]
      omega
    | x :: xs, y :: ys =>
      simp only [List.length_cons] at hf
      rw [levDist_cons_cons]
      simp only [levTraceF]
      by_cases hxy : x = y
      · rw [if_pos hxy, if_pos hxy, costTags_cons, ih xs ys (by omega)]
        simp [tagCost]
      · rw [if_neg hxy, if_neg hxy]
        by_cases h1 : levDist xs ys ≤ levDist (x :: xs) ys ∧
            levDist xs ys ≤ levDist xs (y :: ys)
        · rw [if_pos h1, costTags_cons, ih xs ys (by omega)]
          simp only [tagCost]
          omega
        · rw [if_neg h1]
          by_cases h2 : levDist (x :: xs) ys ≤ levDist xs (y :: ys)
          · rw [if_pos h2, costTags_cons,
              ih (x :: xs) ys (by simp only [List.length_cons]; omega)]
            simp only [tagCost]
            omega
          · rw [if_neg h2, costTags_cons,
              ih xs (y :: ys) (by simp only [List.length_cons]; omega)]
            simp only [tagCost]
            omega

theorem costTags_levTrace (xs ys : List α) :
    costTags (levTrace xs ys) = levDist xs ys :=
  levTraceF_cost _ xs ys (le_refl _)

theorem levTraceF_no_equal :
    ∀ (f : Nat) (xs ys : List α), xs.length + ys.length ≤ f →
      (∀ a ∈ xs, a ∉ ys) → countTag Tag.equal (levTraceF f xs ys) = 0 := by
  intro f
  induction f with
  | zero =>
    intro xs ys hf _
    match xs, ys with
    | [], ys => simp [levTraceF, countTag_replicate]
    | x :: xs, [] => simp [List.length_cons] at hf
    | x :: xs, y :: ys => simp [List.length_cons] at hf
  | succ f ih =>
    intro xs ys hf hd
    match xs, ys with
    | [], ys => simp [levTraceF, countTag_replicate]
    | x :: xs, [] => simp [levTraceF, countTag, countTag_replicate]
    | x :: xs, y :: ys =>
      simp only [List.length_cons] at hf
      have hxy : x ≠ y := by
        intro h
        exact hd x (List.mem_cons_self x xs) (h ▸ List.mem_cons_self y ys)
      simp only [levTraceF, if_neg hxy]
      have hd₁ : ∀ a ∈ xs, a ∉ ys := fun a ha hb =>
        hd a (List.mem_cons_of_mem x ha) (List.mem_cons_of_mem y hb)
      have hd₂ : ∀ a ∈ x :: xs, a ∉ ys := fun a ha hb =>
        hd a ha (List.mem_cons_of_mem y hb)
      have hd₃ : ∀ a ∈ xs, a ∉ y :: ys := fun a ha =>
        hd a (List.mem_cons_of_mem x ha)
      split
      · simp only [countTag, ih xs ys (by omega) hd₁]
        simp
      · split
        · simp only [countTag,
            ih (x :: xs) ys (by simp only [List.length_cons]; omega) hd₂]
          simp
        · simp only [countTag,
            ih xs (y :: ys) (by simp only [List.length_cons]; omega) hd₃]
          simp

theorem countTag_equal_levTrace_of_disjoint (xs ys : List α)
    (hd : ∀ a ∈ xs, a ∉ ys) : countTag Tag.equal (levTrace xs ys) = 0 :=
  levTraceF_no_equal _ xs ys (le_refl _) hd

theorem levTraceF_self :
    ∀ (f : Nat) (xs : List α), xs.length + xs.length ≤ f →
      levTraceF f xs xs = List.replicate xs.length Tag.equal := by
  intro f
  induction f with
  | zero =>
    intro xs hf
    match xs with
    | [] => simp [levTraceF]
    | x :: xs => simp [List.length_cons] at hf
  | succ f ih =>
    intro xs hf
    match xs with
    | [] => simp [levTraceF]
    | x :: xs =>
      simp only [List.length_cons] at hf
      simp only [levTraceF, List.length_cons, List.replicate_succ, if_true]
      rw [ih xs (by omega)]

theorem levTrace_self (xs : List α) :
    levTrace xs xs = List.replicate xs.length Tag.equal :=
  levTraceF_self _ xs (le_refl _)

theorem levDistF_disjoint :
    ∀ (f : Nat) (xs ys : List α), xs.length + ys.length ≤ f →
      (∀ a ∈ xs, a ∉ ys) → levDistF f xs ys = max xs.length ys.length := by
  intro f
  induction f with
  | zero =>
    intro xs ys hf _
    match xs, ys with
    | [], ys => simp [levDistF]
    | x :: xs, [] => simp [List.length_cons] at hf
    | x :: xs, y :: ys => simp [List.length_cons] at hf
  | succ f ih =>
    intro xs ys hf hd
    match xs, ys with
    | [], ys => simp [levDistF]
    | x :: xs, [] => simp [levDistF]
    | x :: xs, y :: ys =>
      simp only [List.length_cons] at hf
      have hxy : x ≠ y := by
        intro h
        exact hd x (List.mem_cons_self x xs) (h ▸ List.mem_cons_self y ys)
      have hd₁ : ∀ a ∈ xs, a ∉ ys := fun a ha hb =>
        hd a (List.mem_cons_of_mem x ha) (List.mem_cons_of_mem y hb)
      have hd₂ : ∀ a ∈ x :: xs, a ∉ ys := fun a ha hb =>
        hd a ha (List.mem_cons_of_mem y hb)
      have hd₃ : ∀ a ∈ xs, a ∉ y :: ys := fun a ha =>
        hd a (List.mem_cons_of_mem x ha)
      simp only [levDistF, if_neg hxy]
      rw [ih xs ys (by omega) hd₁,
        ih (x :: xs) ys (by simp only [List.length_cons]; omega) hd₂,
        ih xs (y :: ys) (by simp only [List.length_cons]; omega) hd₃]
      simp only [List.length_cons]
      omega

theorem levDist_disjoint (xs ys : List α) (hd : ∀ a ∈ xs, a ∉ ys) :
    levDist xs ys = max xs.length ys.length :=
  levDistF_disjoint _ xs ys (le_refl _) hd

theorem countTag_ref_split (l : List Tag) :
    countTag Tag.equal l + countTag Tag.substitute l + countTag Tag.delete l =
      sumTagRef l := by
  induction l with
  | nil => simp [countTag, sumTagRef]
  | cons t l ih =>
    simp only [countTag, sumTagRef_cons]
    cases t <;> simp [tagRef] <;> omega

theorem countTag_hyp_split (l : List Tag) :
    countTag Tag.equal l + countTag Tag.substitute l + countTag Tag.insert l =
      sumTagHyp l := by
  induction l with
  | nil => simp [countTag, sumTagHyp]
  | cons t l ih =>
    simp only [countTag, sumTagHyp_cons]
    cases t <;> simp [tagHyp] <;> omega

theorem countTag_cost_split (l : List Tag) :
    countTag Tag.substitute l + countTag Tag.delete l + countTag Tag.insert l =
      costTags l := by
  induction l with
  | nil => simp [countTag, costTags]
  | cons t l ih =>
    simp only [countTag, costTags_cons]
    cases t <;> simp [tagCost] <;> omega

theorem sumRefSpans_rleGo :
    ∀ (rest : List Tag) (t : Tag) (n i j : Nat),
      sumRefSpans (rleGo t n i j rest) = n * tagRef t + sumTagRef rest := by
  intro rest
  induction rest with
  | nil =>
    intro t n i j
    simp [rleGo, sumRefSpans, mkChunk, sumTagRef]
  | cons u rest ih =>
    intro t n i j
    simp only [rleGo]
    by_cases hut : u = t
    · rw [if_pos hut, ih, sumTagRef_cons, hut]
      ring
    · rw [if_neg hut]
      simp only [sumRefSpans, List.map_cons, List.sum_cons, mkChunk] at *
      rw [ih, sumTagRef_cons]
      omega

theorem sumHypSpans_rleGo :
    ∀ (rest : List Tag) (t : Tag) (n i j : Nat),
      sumHypSpans (rleGo t n i j rest) = n * tagHyp t + sumTagHyp rest := by
  intro rest
  induction rest with
  | nil =>
    intro t n i j
    simp [rleGo, sumHypSpans, mkChunk, sumTagHyp]
  | cons u rest ih =>
    intro t n i j
    simp only [rleGo]
    by_cases hut : u = t
    · rw [if_pos hut, ih, sumTagHyp_cons, hut]
      ring
    · rw [if_neg hut]
      simp only [sumHypSpans, List.map_cons, List.sum_cons, mkChunk] at *
      rw [ih, sumTagHyp_cons]
      omega

theorem chained_rleGo :
    ∀ (rest : List Tag) (t : Tag) (n i j : Nat),
      chainedFrom i j (rleGo t n i j rest)
        (i + (n * tagRef t + sumTagRef rest))
        (j + (n * tagHyp t + sumTagHyp rest)) = true := by
  intro rest
  induction rest with
  | nil =>
    intro t n i j
    simp [rleGo, chainedFrom, mkChunk, sumTagRef, sumTagHyp]
  | cons u rest ih =>
    intro t n i j
    simp only [rleGo]
    by_cases hut : u = t
    · rw [if_pos hut]
      have := ih t (n + 1) i j
      rw [hut, sumTagRef_cons, sumTagHyp_cons]
      have e1 : i + (n * tagRef t + (tagRef t + sumTagRef rest)) =
          i + ((n + 1) * tagRef t + sumTagRef rest) := by ring_nf
      have e2 : j + (n * tagHyp t + (tagHyp t + sumTagHyp rest)) =
          j + ((n + 1) * tagHyp t + sumTagHyp rest) := by ring_nf
      rw [e1, e2]
      exact this
    · rw [if_neg hut]
      rw [sumTagRef_cons, sumTagHyp_cons]
      simp only [chainedFrom, mkChunk, Bool.and_eq_true, beq_iff_eq,
        decide_eq_true_eq]
      refine ⟨⟨⟨⟨trivial, trivial⟩, Nat.le_add_right _ _⟩,
        Nat.le_add_right _ _⟩, ?_⟩
      have h := ih u 1 (i + n * tagRef t) (j + n * tagHyp t)
      have e1 : i + (n * tagRef t + (tagRef u + sumTagRef rest)) =
          i + n * tagRef t + (1 * tagRef u + sumTagRef rest) := by ring_nf
      have e2 : j + (n * tagHyp t + (tagHyp u + sumTagHyp rest)) =
          j + n * tagHyp t + (1 * tagHyp u + sumTagHyp rest) := by ring_nf
      rw [e1, e2]
      exact h

theorem hitsOf_rleGo :
    ∀ (rest : List Tag) (t : Tag) (n i j : Nat),
      hitsOf (rleGo t n i j rest) =
        (if t = Tag.equal then n else 0) + countTag Tag.equal rest := by
  intro rest
  induction rest with
  | nil =>
    intro t n i j
    cases t <;> simp [rleGo, hitsOf, mkChunk, countTag, tagRef]
  | cons u rest ih =>
    intro t n i j
    simp only [rleGo]
    by_cases hut : u = t
    · rw [if_pos hut, ih, hut]
      simp only [countTag]
      split <;> omega
    · rw [if_neg hut]
      simp only [hitsOf, List.map_cons, List.sum_cons, mkChunk] at *
      rw [ih]
      simp only [countTag]
      cases t <;> cases u <;> simp [tagRef] at * <;> omega

theorem subsOf_rleGo :
    ∀ (rest : List Tag) (t : Tag) (n i j : Nat),
      subsOf (rleGo t n i j rest) =
        (if t = Tag.substitute then n else 0) + countTag Tag.substitute rest := by
  intro rest
  induction rest with
  | nil =>
    intro t n i j
    cases t <;> simp [rleGo, subsOf, mkChunk, countTag, tagRef]
  | cons u rest ih =>
    intro t n i j
    simp only [rleGo]
    by_cases hut : u = t
    · rw [if_pos hut, ih, hut]
      simp only [countTag]
      split <;> omega
    · rw [if_neg hut]
      simp only [subsOf, List.map_cons, List.sum_cons, mkChunk] at *
      rw [ih]
      simp only [countTag]
      cases t <;> cases u <;> simp [tagRef] at * <;> omega

theorem delsOf_rleGo :
    ∀ (rest : List Tag) (t : Tag) (n i j : Nat),
      delsOf (rleGo t n i j rest) =
        (if t = Tag.delete then n else 0) + countTag Tag.delete rest := by
  intro rest
  induction rest with
  | nil =>
    intro t n i j
    cases t <;> simp [rleGo, delsOf, mkChunk, countTag, tagRef]
  | cons u rest ih =>
    intro t n i j
    simp only [rleGo]
    by_cases hut : u = t
    · rw [if_pos hut, ih, hut]
      simp only [countTag]
      split <;> omega
    · rw [if_neg hut]
      simp only [delsOf, List.map_cons, List.sum_cons, mkChunk] at *
      rw [ih]
      simp only [countTag]
      cases t <;> cases u <;> simp [tagRef] at * <;> omega

theorem insOf_rleGo :
    ∀ (rest : List Tag) (t : Tag) (n i j : Nat),
      insOf (rleGo t n i j rest) =
        (if t = Tag.insert then n else 0) + countTag Tag.insert rest := by
  intro rest
  induction rest with
  | nil =>
    intro t n i j
    cases t <;> simp [rleGo, insOf, mkChunk, countTag, tagHyp]
  | cons u rest ih =>
    intro t n i j
    simp only [rleGo]
    by_cases hut : u = t
    · rw [if_pos hut, ih, hut]
      simp only [countTag]
      split <;> omega
    · rw [if_neg hut]
      simp only [insOf, List.map_cons, List.sum_cons, mkChunk] at *
      rw [ih]
      simp only [countTag]
      cases t <;> cases u <;> simp [tagHyp] at * <;> omega

theorem toChunks_sumRef (i j : Nat) (tags : List Tag) :
    sumRefSpans (toChunks i j tags) = sumTagRef tags := by
  cases tags with
  | nil => simp [toChunks, sumRefSpans, sumTagRef]
  | cons t rest =>
    simp only [toChunks, sumRefSpans_rleGo, sumTagRef_cons]
    omega

theorem toChunks_sumHyp (i j : Nat) (tags : List Tag) :
    sumHypSpans (toChunks i j tags) = sumTagHyp tags := by
  cases tags with
  | nil => simp [toChunks, sumHypSpans, sumTagHyp]
  | cons t rest =>
    simp only [toChunks, sumHypSpans_rleGo, sumTagHyp_cons]
    omega

theorem toChunks_chained (i j : Nat) (tags : List Tag) :
    chainedFrom i j (toChunks i j tags)
      (i + sumTagRef tags) (j + sumTagHyp tags) = true := by
  cases tags with
  | nil => simp [toChunks, chainedFrom, sumTagRef, sumTagHyp]
  | cons t rest =>
    simp only [toChunks, sumTagRef_cons, sumTagHyp_cons]
    have h := chained_rleGo rest t 1 i j
    simp only [one_mul] at h
    exact h

theorem toChunks_hits (i j : Nat) (tags : List Tag) :
    hitsOf (toChunks i j tags) = countTag Tag.equal tags := by
  cases tags with
  | nil => simp [toChunks, hitsOf, countTag]
  | cons t rest =>
    simp only [toChunks, hitsOf_rleGo, countTag]

theorem toChunks_subs (i j : Nat) (tags : List Tag) :
    subsOf (toChunks i j tags) = countTag Tag.substitute tags := by
  cases tags with
  | nil => simp [toChunks, subsOf, countTag]
  | cons t rest =>
    simp only [toChunks, subsOf_rleGo, countTag]

theorem toChunks_dels (i j : Nat) (tags : List Tag) :
    delsOf (toChunks i j tags) = countTag Tag.delete tags := by
  cases tags with
  | nil => simp [toChunks, delsOf, countTag]
  | cons t rest =>
    simp only [toChunks, delsOf_rleGo, countTag]

theorem toChunks_ins (i j : Nat) (tags : List Tag) :
    insOf (toChunks i j tags) = countTag Tag.insert tags := by
  cases tags with
  | nil => simp [toChunks, insOf, countTag]
  | cons t rest =>
    simp only [toChunks, insOf_rleGo, countTag]

theorem sentenceChunks_ref_conservation (r h : List Nat) :
    hitsOf (sentenceChunks r h) + subsOf (sentenceChunks r h) +
      delsOf (sentenceChunks r h) = r.length := by
  simp only [sentenceChunks, toChunks_hits, toChunks_subs, toChunks_dels]
  rw [countTag_ref_split, sumTagRef_levTrace]

theorem sentenceChunks_hyp_conservation (r h : List Nat) :
    hitsOf (sentenceChunks r h) + subsOf (sentenceChunks r h) +
      insOf (sentenceChunks r h) = h.length := by
  simp only [sentenceChunks, toChunks_hits, toChunks_subs, toChunks_ins]
  rw [countTag_hyp_split, sumTagHyp_levTrace]

theorem sentenceChunks_cost (r h : List Nat) :
    subsOf (sentenceChunks r h) + delsOf (sentenceChunks r h) +
      insOf (sentenceChunks r h) = levDist r h := by
  simp only [sentenceChunks, toChunks_subs, toChunks_dels, toChunks_ins]
  rw [countTag_cost_split, costTags_levTrace]

theorem sentenceChunks_sumRef (r h : List Nat) :
    sumRefSpans (sentenceChunks r h) = r.length := by
  simp only [sentenceChunks, toChunks_sumRef, sumTagRef_levTrace]

theorem sentenceChunks_sumHyp (r h : List Nat) :
    sumHypSpans (sentenceChunks r h) = h.length := by
  simp only [sentenceChunks, toChunks_sumHyp, sumTagHyp_levTrace]

theorem sentenceChunks_chained (r h : List Nat) :
    chainedFrom 0 0 (sentenceChunks r h) r.length h.length = true := by
  have hc := toChunks_chained 0 0 (levTrace r h)
  simp only [sumTagRef_levTrace, sumTagHyp_levTrace, Nat.zero_add] at hc
  exact hc

theorem rleGo_replicate (t : Tag) :
    ∀ (k n i j : Nat),
      rleGo t n i j (List.replicate k t) = [mkChunk t (n + k) i j] := by
  intro k
  induction k with
  | zero => intro n i j; simp [rleGo]
  | succ k ih =>
    intro n i j
    simp only [List.replicate_succ, rleGo, if_true]
    rw [ih]
    have e : n + 1 + k = n + (k + 1) := by omega
    rw [e]

theorem sentenceChunks_self (x : List Nat) (hx : x ≠ []) :
    sentenceChunks x x =
      [⟨Tag.equal, 0, x.length, 0, x.length⟩] := by
  simp only [sentenceChunks, levTrace_self]
  cases x with
  | nil => exact absurd rfl hx
  | cons a l =>
    simp only [List.length_cons, List.replicate_succ, toChunks]
    rw [rleGo_replicate]
    simp [mkChunk, tagRef, tagHyp]
    omega

/-- A mapping state is valid when its values are exactly `0, 1, ...` in
insertion order, as the auto-incrementing dict produces. -/
def ValidMap (m : List (α × Nat)) : Prop :=
  m.map Prod.snd = List.range m.length

theorem validMap_nil : ValidMap ([] : List (α × Nat)) := by
  simp [ValidMap]

theorem findId_mem {m : List (α × Nat)} {w : α} {i : Nat}
    (h : findId m w = some i) : (w, i) ∈ m := by
  induction m with
  | nil => simp [findId] at h
  | cons e m ih =>
    obtain ⟨k, v⟩ := e
    simp only [findId] at h
    by_cases hk : k = w
    · rw [if_pos hk] at h
      obtain rfl := Option.some.inj h
      subst hk
      exact List.mem_cons_self _ _
    · rw [if_neg hk] at h
      exact List.mem_cons_of_mem _ (ih h)

theorem findId_append_left {m m₂ : List (α × Nat)} {w : α} {i : Nat}
    (h : findId m w = some i) : findId (m ++ m₂) w = some i := by
  induction m with
  | nil => simp [findId] at h
  | cons e m ih =>
    obtain ⟨k, v⟩ := e
    simp only [findId, List.cons_append] at h ⊢
    by_cases hk : k = w
    · rwa [if_pos hk] at h ⊢
    · rw [if_neg hk] at h ⊢
      exact ih h

theorem findId_append_right {m m₂ : List (α × Nat)} {w : α}
    (h : findId m w = none) : findId (m ++ m₂) w = findId m₂ w := by
  induction m with
  | nil => simp [findId]
  | cons e m ih =>
    obtain ⟨k, v⟩ := e
    simp only [findId, List.cons_append] at h ⊢
    by_cases hk : k = w
    · rw [if_pos hk] at h; exact absurd h (by simp)
    · rw [if_neg hk] at h ⊢
      exact ih h

theorem validMap_inj {m : List (α × Nat)} (hv : ValidMap m) {u v : α}
    {i : Nat} (hu : findId m u = some i) (hw : findId m v = some i) :
    u = v := by
  have hnod : (m.map Prod.snd).Nodup := by
    rw [hv]; exact List.nodup_range _
  have h1 := findId_mem hu
  have h2 := findId_mem hw
  have := List.inj_on_of_nodup_map hnod h1 h2 (by rfl)
  exact congrArg Prod.fst this

theorem assignId_self (m : List (α × Nat)) (w : α) :
    findId (assignId m w).1 w = some (assignId m w).2 := by
  unfold assignId
  cases hid : findId m w with
  | some i => simpa using hid
  | none =>
    simp only
    rw [findId_append_right hid]
    simp [findId]

theorem assignId_mono {m : List (α × Nat)} {w u : α} {i : Nat}
    (h : findId m u = some i) : findId (assignId m w).1 u = some i := by
  unfold assignId
  cases hid : findId m w with
  | some j => simpa using h
  | none =>
    simp only
    exact findId_append_left h

theorem assignId_valid {m : List (α × Nat)} (hv : ValidMap m) (w : α) :
    ValidMap (assignId m w).1 := by
  unfold assignId
  cases hid : findId m w with
  | some j => simpa using hv
  | none =>
    simp only [ValidMap, List.map_append, List.length_append] at hv ⊢
    rw [hv]
    simp [List.range_succ]

theorem encodeSentence_mono {s : List α} :
    ∀ {m : List (α × Nat)} {u : α} {i : Nat}, findId m u = some i →
      findId (encodeSentence m s).1 u = some i := by
  induction s with
  | nil => intro m u i h; simpa [encodeSentence] using h
  | cons w ws ih =>
    intro m u i h
    simp only [encodeSentence]
    exact ih (assignId_mono h)

theorem encodeSentence_valid {s : List α} :
    ∀ {m : List (α × Nat)}, ValidMap m → ValidMap (encodeSentence m s).1 := by
  induction s with
  | nil => intro m h; simpa [encodeSentence] using h
  | cons w ws ih =>
    intro m h
    simp only [encodeSentence]
    exact ih (assignId_valid h w)

theorem encodeSentence_spec (s : List α) :
    ∀ (m : List (α × Nat)),
      List.Forall₂ (fun w i => findId (encodeSentence m s).1 w = some i)
        s (encodeSentence m s).2 := by
  induction s with
  | nil => intro m; simp [encodeSentence]
  | cons w ws ih =>
    intro m
    simp only [encodeSentence]
    refine List.Forall₂.cons ?_ (ih (assignId m w).1)
    exact encodeSentence_mono (assignId_self m w)

theorem encodeCorpus_mono {c : List (List α)} :
    ∀ {m : List (α × Nat)} {u : α} {i : Nat}, findId m u = some i →
      findId (encodeCorpus m c).1 u = some i := by
  induction c with
  | nil => intro m u i h; simpa [encodeCorpus] using h
  | cons s ss ih =>
    intro m u i h
    simp only [encodeCorpus]
    exact ih (encodeSentence_mono h)

theorem encodeCorpus_valid {c : List (List α)} :
    ∀ {m : List (α × Nat)}, ValidMap m → ValidMap (encodeCorpus m c).1 := by
  induction c with
  | nil => intro m h; simpa [encodeCorpus] using h
  | cons s ss ih =>
    intro m h
    simp only [encodeCorpus]
    exact ih (encodeSentence_valid h)

theorem encodeCorpus_spec (c : List (List α)) :
    ∀ (m : List (α × Nat)),
      List.Forall₂
        (List.Forall₂ (fun w i => findId (encodeCorpus m c).1 w = some i))
        c (encodeCorpus m c).2 := by
  induction c with
  | nil => intro m; simp [encodeCorpus]
  | cons s ss ih =>
    intro m
    simp only [encodeCorpus]
    refine List.Forall₂.cons ?_ (ih (encodeSentence m s).1)
    refine (encodeSentence_spec s m).imp ?_
    intro w i h
    exact encodeCorpus_mono h

theorem finalMap_valid (refT hypT : List (List α)) :
    ValidMap (finalMap refT hypT) :=
  encodeCorpus_valid (encodeCorpus_valid validMap_nil)

theorem word2int_ref_spec (refT hypT : List (List α)) :
    List.Forall₂
      (List.Forall₂ (fun w i => findId (finalMap refT hypT) w = some i))
      refT (refIds refT hypT) := by
  have h := encodeCorpus_spec refT ([] : List (α × Nat))
  refine h.imp ?_
  intro s ids hs
  refine hs.imp ?_
  intro w i hw
  exact encodeCorpus_mono hw

theorem word2int_hyp_spec (refT hypT : List (List α)) :
    List.Forall₂
      (List.Forall₂ (fun w i => findId (finalMap refT hypT) w = some i))
      hypT (hypIds refT hypT) :=
  encodeCorpus_spec hypT (encodeCorpus ([] : List (α × Nat)) refT).1

theorem forall₂_inner_lengths {β γ : Type} {R : β → γ → Prop} :
    ∀ {l1 : List (List β)} {l2 : List (List γ)},
      List.Forall₂ (List.Forall₂ R) l1 l2 →
      l2.map List.length = l1.map List.length := by
  intro l1 l2 h
  induction h with
  | nil => rfl
  | cons hab _ ih =>
    simp only [List.map_cons, ih, List.cons.injEq, and_true]
    exact hab.length_eq.symm

theorem forall₂_findId_unique {M : List (α × Nat)} :
    ∀ {s : List α} {a b : List Nat},
      List.Forall₂ (fun w i => findId M w = some i) s a →
      List.Forall₂ (fun w i => findId M w = some i) s b → a = b := by
  intro s
  induction s with
  | nil =>
    intro a b ha hb
    cases ha; cases hb; rfl
  | cons w ws ih =>
    intro a b ha hb
    cases ha with
    | cons hwa hta =>
      cases hb with
      | cons hwb htb =>
        rw [ih hta htb]
        have := Option.some.inj (hwa.symm.trans hwb)
        rw [this]

theorem forall₂_mem_right {β γ : Type} {R : β → γ → Prop} :
    ∀ {s : List β} {ids : List γ}, List.Forall₂ R s ids →
      ∀ {i}, i ∈ ids → ∃ w ∈ s, R w i := by
  intro s ids h
  induction h with
  | nil => intro i hi; simp at hi
  | cons hab _ ih =>
    intro i hi
    rcases List.mem_cons.mp hi with rfl | hi
    · exact ⟨_, List.mem_cons_self _ _, hab⟩
    · obtain ⟨w, hw, hr⟩ := ih hi
      exact ⟨w, List.mem_cons_of_mem _ hw, hr⟩

theorem refIds_lengths (refT hypT : List (List α)) :
    (refIds refT hypT).map List.length = refT.map List.length :=
  forall₂_inner_lengths (word2int_ref_spec refT hypT)

theorem hypIds_lengths (refT hypT : List (List α)) :
    (hypIds refT hypT).map List.length = hypT.map List.length :=
  forall₂_inner_lengths (word2int_hyp_spec refT hypT)

theorem refIds_length (refT hypT : List (List α)) :
    (refIds refT hypT).length = refT.length :=
  (word2int_ref_spec refT hypT).length_eq.symm

theorem hypIds_length (refT hypT : List (List α)) :
    (hypIds refT hypT).length = hypT.length :=
  (word2int_hyp_spec refT hypT).length_eq.symm

theorem zip_fst_lengths :
    ∀ (l1 l2 : List (List Nat)), l1.length = l2.length →
      ((l1.zip l2).map fun p => p.1.length) = l1.map List.length := by
  intro l1
  induction l1 with
  | nil => intro l2 h; simp
  | cons a l1 ih =>
    intro l2 h
    cases l2 with
    | nil => simp at h
    | cons b l2 =>
      simp only [List.zip_cons_cons, List.map_cons, List.cons.injEq, true_and]
      exact ih l2 (by simpa using h)

theorem zip_snd_lengths :
    ∀ (l1 l2 : List (List Nat)), l1.length = l2.length →
      ((l1.zip l2).map fun p => p.2.length) = l2.map List.length := by
  intro l1
  induction l1 with
  | nil =>
    intro l2 h
    cases l2 with
    | nil => simp
    | cons b l2 => simp at h
  | cons a l1 ih =>
    intro l2 h
    cases l2 with
    | nil => simp at h
    | cons b l2 =>
      simp only [List.zip_cons_cons, List.map_cons, List.cons.injEq, true_and]
      exact ih l2 (by simpa using h)

theorem totR_eq_numTokens (refT hypT : List (List α))
    (h : refT.length = hypT.length) :
    totR refT hypT = numTokens refT := by
  unfold totR corpusPairs numTokens
  rw [zip_fst_lengths _ _ (by rw [refIds_length, hypIds_length, h]),
    refIds_lengths]

theorem totP_eq_numTokens (refT hypT : List (List α))
    (h : refT.length = hypT.length) :
    totP refT hypT = numTokens hypT := by
  unfold totP corpusPairs numTokens
  rw [zip_snd_lengths _ _ (by rw [refIds_length, hypIds_length, h]),
    hypIds_lengths]

theorem corpus_ref_conservation :
    ∀ (l : List (List Nat × List Nat)),
      ((l.map fun p => sentenceChunks p.1 p.2).map hitsOf).sum +
        ((l.map fun p => sentenceChunks p.1 p.2).map subsOf).sum +
        ((l.map fun p => sentenceChunks p.1 p.2).map delsOf).sum =
        (l.map fun p => p.1.length).sum := by
  intro l
  induction l with
  | nil => simp
  | cons p l ih =>
    simp only [List.map_cons, List.sum_cons]
    have h := sentenceChunks_ref_conservation p.1 p.2
    omega

theorem corpus_hyp_conservation :
    ∀ (l : List (List Nat × List Nat)),
      ((l.map fun p => sentenceChunks p.1 p.2).map hitsOf).sum +
        ((l.map fun p => sentenceChunks p.1 p.2).map subsOf).sum +
        ((l.map fun p => sentenceChunks p.1 p.2).map insOf).sum =
        (l.map fun p => p.2.length).sum := by
  intro l
  induction l with
  | nil => simp
  | cons p l ih =>
    simp only [List.map_cons, List.sum_cons]
    have h := sentenceChunks_hyp_conservation p.1 p.2
    omega

theorem tot_ref_conservation (refT hypT : List (List α)) :
    totH refT hypT + totS refT hypT + totD refT hypT = totR refT hypT :=
  corpus_ref_conservation (corpusPairs refT hypT)

theorem tot_hyp_conservation (refT hypT : List (List α)) :
    totH refT hypT + totS refT hypT + totI refT hypT = totP refT hypT :=
  corpus_hyp_conservation (corpusPairs refT hypT)


theorem processWordsCore_eq_ok (refT hypT : List (List α))
    (h1 : refT.any List.isEmpty = false)
    (h2 : refT.length = hypT.length)
    (h3 : totH refT hypT + totS refT hypT + totD refT hypT ≠ 0) :
    processWordsCore refT hypT = .ok (coreOutput refT hypT) := by
  simp only [processWordsCore]
  rw [h1]
  rw [if_neg (by simp : ¬(false = true))]
  rw [if_neg (by omega : ¬refT.length ≠ hypT.length)]
  rw [if_neg h3]

theorem processWordsCore_invalid {refT hypT : List (List α)}
    (h1 : refT.any List.isEmpty = true) :
    processWordsCore refT hypT = .error .invalidReferenceTransform := by
  simp [processWordsCore, h1]

theorem processWordsCore_mismatch {refT hypT : List (List α)}
    (h1 : refT.any List.isEmpty = false)
    (h2 : refT.length ≠ hypT.length) :
    processWordsCore refT hypT = .error .lengthMismatch := by
  simp [processWordsCore, h1, h2]

theorem processWordsCore_zeroDiv {refT hypT : List (List α)}
    (h1 : refT.any List.isEmpty = false)
    (h2 : refT.length = hypT.length)
    (h3 : totH refT hypT + totS refT hypT + totD refT hypT = 0) :
    processWordsCore refT hypT = .error .zeroDivision := by
  simp only [processWordsCore]
  rw [h1]
  rw [if_neg (by simp : ¬(false = true))]
  rw [if_neg (by omega : ¬refT.length ≠ hypT.length)]
  rw [if_pos h3]

theorem processWordsCore_ok_elim {refT hypT : List (List α)}
    {out : WordOutput α} (h : processWordsCore refT hypT = .ok out) :
    refT.any List.isEmpty = false ∧ refT.length = hypT.length ∧
      totH refT hypT + totS refT hypT + totD refT hypT ≠ 0 ∧
      out = coreOutput refT hypT := by
  by_cases h1 : refT.any List.isEmpty = true
  · rw [processWordsCore_invalid h1] at h
    cases h
  · have h1f : refT.any List.isEmpty = false := by
      cases hb : refT.any List.isEmpty with
      | false => rfl
      | true => exact absurd hb h1
    by_cases h2 : refT.length = hypT.length
    · by_cases h3 : totH refT hypT + totS refT hypT + totD refT hypT = 0
      · rw [processWordsCore_zeroDiv h1f h2 h3] at h
        cases h
      · rw [processWordsCore_eq_ok refT hypT h1f h2 h3] at h
        injection h with h
        exact ⟨h1f, h2, h3, h.symm⟩
    · rw [processWordsCore_mismatch h1f h2] at h
      cases h

theorem forall₂_mem_left {β γ : Type} {R : β → γ → Prop} :
    ∀ {s : List β} {ids : List γ}, List.Forall₂ R s ids →
      ∀ {w}, w ∈ s → ∃ i ∈ ids, R w i := by
  intro s ids h
  induction h with
  | nil => intro w hw; simp at hw
  | cons hab _ ih =>
    intro w hw
    rcases List.mem_cons.mp hw with rfl | hw
    · exact ⟨_, List.mem_cons_self _ _, hab⟩
    · obtain ⟨i, hi, hr⟩ := ih hw
      exact ⟨i, List.mem_cons_of_mem _ hi, hr⟩

theorem sum_map_add3 {β : Type} (f g k : β → Nat) :
    ∀ (l : List β),
      (l.map f).sum + (l.map g).sum + (l.map k).sum =
        (l.map fun x => f x + g x + k x).sum := by
  intro l
  induction l with
  | nil => simp
  | cons a l ih =>
    simp only [List.map_cons, List.sum_cons]
    omega

theorem any_isEmpty_false_iff (c : List (List α)) :
    c.any List.isEmpty = false ↔ ∀ s ∈ c, s ≠ [] := by
  induction c with
  | nil => simp
  | cons s ss ih =>
    simp only [List.any_cons, Bool.or_eq_false_iff, ih, List.mem_cons]
    constructor
    · rintro ⟨h1, h2⟩ t (rfl | ht)
      · intro hte
        subst hte
        simp [List.isEmpty] at h1
      · exact h2 t ht
    · intro h
      refine ⟨?_, fun t ht => h t (Or.inr ht)⟩
      have := h s (Or.inl rfl)
      cases s with
      | nil => exact absurd rfl this
      | cons a l => rfl

theorem numTokens_pos (c : List (List α)) (hne : c ≠ [])
    (h : ∀ s ∈ c, s ≠ []) : 1 ≤ numTokens c := by
  cases c with
  | nil => exact absurd rfl hne
  | cons s ss =>
    have hs := h s (List.mem_cons_self _ _)
    have : 1 ≤ s.length := by
      cases s with
      | nil => exact absurd rfl hs
      | cons a l => simp
    simp only [numTokens, List.map_cons, List.sum_cons]
    omega

theorem corpusPairs_spec (refT hypT : List (List α))
    (hlen : List.Forall₂ (fun r h => r.length = h.length) refT hypT)
    (hdisj : ∀ u ∈ refT.flatten, ∀ v ∈ hypT.flatten, u ≠ v) :
    ∀ p ∈ corpusPairs refT hypT,
      p.1.length = p.2.length ∧ ∀ a ∈ p.1, a ∉ p.2 := by
  have hv := finalMap_valid refT hypT
  have main :
      ∀ (rT : List (List α)) (rI : List (List Nat)) (hT : List (List α))
        (hI : List (List Nat)),
        List.Forall₂
          (List.Forall₂ (fun w i => findId (finalMap refT hypT) w = some i))
          rT rI →
        List.Forall₂
          (List.Forall₂ (fun w i => findId (finalMap refT hypT) w = some i))
          hT hI →
        List.Forall₂ (fun r h => r.length = h.length) rT hT →
        (∀ u ∈ rT.flatten, ∀ v ∈ hT.flatten, u ≠ v) →
        ∀ p ∈ rI.zip hI, p.1.length = p.2.length ∧ ∀ a ∈ p.1, a ∉ p.2 := by
    intro rT
    induction rT with
    | nil =>
      intro rI hT hI hr _ _ _ p hp
      cases hr
      simp at hp
    | cons s sT ih =>
      intro rI hT hI hr hh hl hd p hp
      cases hr with
      | cons hsIds hrest =>
        cases hl with
        | cons hlh hlrest =>
          cases hh with
          | cons htIds hhrest =>
            rename_i ids rIdss t tT jds hIdss
            rcases List.mem_cons.mp hp with rfl | hp
            · constructor
              · rw [← hsIds.length_eq, ← htIds.length_eq]
                exact hlh
              · intro a ha hb
                obtain ⟨u, hu, hpu⟩ := forall₂_mem_right hsIds ha
                obtain ⟨v, hvmem, hpv⟩ := forall₂_mem_right htIds hb
                have huv : u ≠ v := by
                  refine hd u ?_ v ?_
                  · exact List.mem_flatten.mpr ⟨s, List.mem_cons_self _ _, hu⟩
                  · exact List.mem_flatten.mpr ⟨t, List.mem_cons_self _ _, hvmem⟩
                exact huv (validMap_inj hv hpu hpv)
            · refine ih rIdss tT hIdss hrest hhrest hlrest ?_ p hp
              intro u hu v hvmem
              refine hd u ?_ v ?_
              · obtain ⟨l, hl₁, hl₂⟩ := List.mem_flatten.mp hu
                exact List.mem_flatten.mpr ⟨l, List.mem_cons_of_mem _ hl₁, hl₂⟩
              · obtain ⟨l, hl₁, hl₂⟩ := List.mem_flatten.mp hvmem
                exact List.mem_flatten.mpr ⟨l, List.mem_cons_of_mem _ hl₁, hl₂⟩
  exact main refT (refIds refT hypT) hypT (hypIds refT hypT)
    (word2int_ref_spec refT hypT) (word2int_hyp_spec refT hypT) hlen hdisj

theorem aligns_partition_aux :
    ∀ (rI hI : List (List Nat)) (rT hT : List (List α)),
      rI.map List.length = rT.map List.length →
      hI.map List.length = hT.map List.length →
      List.Forall₂ (fun chunks pr =>
          chainedFrom 0 0 chunks pr.1.length pr.2.length = true ∧
          sumRefSpans chunks = pr.1.length ∧
          sumHypSpans chunks = pr.2.length)
        ((rI.zip hI).map fun p => sentenceChunks p.1 p.2) (rT.zip hT) := by
  intro rI
  induction rI with
  | nil =>
    intro hI rT hT hr _
    have : rT = [] := by
      cases rT with
      | nil => rfl
      | cons a l => simp at hr
    subst this
    simp
  | cons r rI ih =>
    intro hI rT hT hr hh
    cases rT with
    | nil => simp at hr
    | cons s sT =>
      simp only [List.map_cons, List.cons.injEq] at hr
      cases hI with
      | nil =>
        have : hT = [] := by
          cases hT with
          | nil => rfl
          | cons a l => simp at hh
        subst this
        simp
      | cons h hI =>
        cases hT with
        | nil => simp at hh
        | cons t tT =>
          simp only [List.map_cons, List.cons.injEq] at hh
          simp only [List.zip_cons_cons, List.map_cons]
          refine List.Forall₂.cons ?_ (ih hI sT tT hr.2 hh.2)
          refine ⟨?_, ?_, ?_⟩
          · rw [← hr.1, ← hh.1]
            exact sentenceChunks_chained r h
          · rw [← hr.1]
            exact sentenceChunks_sumRef r h
          · rw [← hh.1]
            exact sentenceChunks_sumHyp r h

theorem process_words_ok_elim {reference hypothesis : List String}
    {rT hT : List String → List (List String)} {out : WordOutput String}
    (h : process_words reference hypothesis rT hT = .ok out) :
    processWordsCore (rT reference) (hT hypothesis) = .ok out := by
  by_cases hb : (reference.any fun t => t.length == 0) = true
  · simp only [process_words, hb, if_true] at h
    cases h
  · have hb' : (reference.any fun t => t.length == 0) = false := by
      cases hx : reference.any fun t => t.length == 0 with
      | false => rfl
      | true => exact absurd hx hb
    simpa only [process_words, hb', Bool.false_eq_true, if_false] using h

/-- C1: for every accepted input, the returned WordOutput satisfies
wer = (S + D + I) / (H + S + D) and mer = (S + D + I) / (H + S + D + I),
where H, S, D, I are the hits, substitutions, deletions and insertions
summed over the per-sentence-pair alignments of the corpus. -/
theorem process_words_wer_mer_formula
    (reference hypothesis : List String)
    (rT hT : List String → List (List String)) (out : WordOutput String)
    (h : process_words reference hypothesis rT hT = .ok out) :
    out.wer = ((out.substitutions + out.deletions + out.insertions : Nat) : ℚ) /
      ((out.hits + out.substitutions + out.deletions : Nat) : ℚ) ∧
    out.mer = ((out.substitutions + out.deletions + out.insertions : Nat) : ℚ) /
      ((out.hits + out.substitutions + out.deletions +
        out.insertions : Nat) : ℚ) ∧
    out.hits = ((out.alignments.map hitsOf).sum) ∧
    out.substitutions = ((out.alignments.map subsOf).sum) ∧
    out.deletions = ((out.alignments.map delsOf).sum) ∧
    out.insertions = ((out.alignments.map insOf).sum) := by
  obtain ⟨-, -, -, rfl⟩ := processWordsCore_ok_elim (process_words_ok_elim h)
  exact ⟨rfl, rfl, rfl, rfl, rfl, rfl⟩

/-- C4: for every accepted input, wip = (H / ref_token_count) *
(H / hyp_token_count) when the corpus-total hypothesis token count is at
least one, wip = 0 when it is zero, and wil = 1 - wip. -/
theorem process_words_wip_wil_formula
    (reference hypothesis : List String)
    (rT hT : List String → List (List String)) (out : WordOutput String)
    (h : process_words reference hypothesis rT hT = .ok out) :
    (1 ≤ numTokens out.hypotheses →
      out.wip = ((out.hits : ℚ) / (numTokens out.references : ℚ)) *
        ((out.hits : ℚ) / (numTokens out.hypotheses : ℚ))) ∧
    (numTokens out.hypotheses = 0 → out.wip = 0) ∧
    out.wil = 1 - out.wip := by
  obtain ⟨-, h2, -, rfl⟩ := processWordsCore_ok_elim (process_words_ok_elim h)
  set refT := rT reference
  set hypT := hT hypothesis
  have hR : totR refT hypT = numTokens refT := totR_eq_numTokens refT hypT h2
  have hP : totP refT hypT = numTokens hypT := totP_eq_numTokens refT hypT h2
  have hrefs : (coreOutput refT hypT).references = refT := rfl
  have hhyps : (coreOutput refT hypT).hypotheses = hypT := rfl
  have hwip : (coreOutput refT hypT).wip = wipVal refT hypT := rfl
  refine ⟨?_, ?_, ?_⟩
  · intro hge
    rw [hrefs, hhyps, hwip, wipVal, if_pos (by rw [hP]; exact hge), hR, hP]
    rfl
  · intro h0
    rw [hhyps] at h0
    rw [hwip, wipVal, if_neg (by rw [hP]; omega)]
  · rfl

/-- C10: for every accepted input, hits + substitutions + deletions
equals the total number of reference tokens of the transformed corpus
and hits + substitutions + insertions equals the total number of
hypothesis tokens. -/
theorem process_words_counts_conservation
    (reference hypothesis : List String)
    (rT hT : List String → List (List String)) (out : WordOutput String)
    (h : process_words reference hypothesis rT hT = .ok out) :
    out.hits + out.substitutions + out.deletions =
      numTokens out.references ∧
    out.hits + out.substitutions + out.insertions =
      numTokens out.hypotheses := by
  obtain ⟨-, h2, -, rfl⟩ := processWordsCore_ok_elim (process_words_ok_elim h)
  set refT := rT reference
  set hypT := hT hypothesis
  constructor
  · have := tot_ref_conservation refT hypT
    have hR := totR_eq_numTokens refT hypT h2
    simpa [coreOutput] using this.trans hR
  · have := tot_hyp_conservation refT hypT
    have hP := totP_eq_numTokens refT hypT h2
    simpa [coreOutput] using this.trans hP

/-- C7: for every accepted input, wer is nonnegative, wip and wil lie
in [0, 1], and mer never exceeds wer. -/
theorem process_words_measure_bounds
    (reference hypothesis : List String)
    (rT hT : List String → List (List String)) (out : WordOutput String)
    (h : process_words reference hypothesis rT hT = .ok out) :
    0 ≤ out.wer ∧ 0 ≤ out.wip ∧ out.wip ≤ 1 ∧
      0 ≤ out.wil ∧ out.wil ≤ 1 ∧ out.mer ≤ out.wer := by
  obtain ⟨-, -, h3, rfl⟩ := processWordsCore_ok_elim (process_words_ok_elim h)
  set refT := rT reference
  set hypT := hT hypothesis
  set nH := totH refT hypT with hnH
  set nS := totS refT hypT with hnS
  set nD := totD refT hypT with hnD
  set nI := totI refT hypT with hnI
  set nR := totR refT hypT with hnR
  set nP := totP refT hypT with hnP
  have hb : (0 : ℚ) < ((nH + nS + nD : Nat) : ℚ) := by
    have : 1 ≤ nH + nS + nD := by omega
    exact_mod_cast Nat.lt_of_lt_of_le Nat.zero_lt_one this
  have hRister : nH + nS + nD = nR := tot_ref_conservation refT hypT
  have hPister : nH + nS + nI = nP := tot_hyp_conservation refT hypT
  have hwip01 : 0 ≤ wipVal refT hypT ∧ wipVal refT hypT ≤ 1 := by
    rw [wipVal]
    split
    · rename_i hp1
      have hRq : (0 : ℚ) < (nR : ℚ) := by
        have : 1 ≤ nR := by omega
        exact_mod_cast Nat.lt_of_lt_of_le Nat.zero_lt_one this
      have hPq : (0 : ℚ) < (nP : ℚ) := by
        have : 1 ≤ nP := hp1
        exact_mod_cast Nat.lt_of_lt_of_le Nat.zero_lt_one this
      have hf1 : (0 : ℚ) ≤ (nH : ℚ) / (nR : ℚ) :=
        div_nonneg (by positivity) (le_of_lt hRq)
      have hf2 : (0 : ℚ) ≤ (nH : ℚ) / (nP : ℚ) :=
        div_nonneg (by positivity) (le_of_lt hPq)
      have hle1 : (nH : ℚ) / (nR : ℚ) ≤ 1 := by
        rw [div_le_one hRq]
        exact_mod_cast (by omega : nH ≤ nR)
      have hle2 : (nH : ℚ) / (nP : ℚ) ≤ 1 := by
        rw [div_le_one hPq]
        exact_mod_cast (by omega : nH ≤ nP)
      exact ⟨mul_nonneg hf1 hf2, mul_le_one₀ hle1 hf2 hle2⟩
    · exact ⟨le_refl 0, by norm_num⟩
  refine ⟨?_, ?_, ?_, ?_, ?_, ?_⟩
  · exact div_nonneg (by positivity) (le_of_lt hb)
  · exact hwip01.1
  · exact hwip01.2
  · show (0 : ℚ) ≤ 1 - wipVal refT hypT
    linarith [hwip01.2]
  · show (1 : ℚ) - wipVal refT hypT ≤ 1
    linarith [hwip01.1]
  · show ((nS + nD + nI : Nat) : ℚ) / ((nH + nS + nD + nI : Nat) : ℚ) ≤
      ((nS + nD + nI : Nat) : ℚ) / ((nH + nS + nD : Nat) : ℚ)
    have hnum : (0 : ℚ) ≤ ((nS + nD + nI : Nat) : ℚ) := by positivity
    have hden : ((nH + nS + nD : Nat) : ℚ) ≤ ((nH + nS + nD + nI : Nat) : ℚ) := by
      exact_mod_cast (by omega : nH + nS + nD ≤ nH + nS + nD + nI)
    exact div_le_div_of_nonneg_left hnum hb hden

/-- C5: for every sentence pair of an accepted input the alignment
chunks partition both token sequences: they are contiguous in order
from index 0 to the full length on both sides, and the span-length sums
equal the sentence lengths. -/
theorem process_words_alignments_partition
    (reference hypothesis : List String)
    (rT hT : List String → List (List String)) (out : WordOutput String)
    (h : process_words reference hypothesis rT hT = .ok out) :
    List.Forall₂ (fun chunks pr =>
        chainedFrom 0 0 chunks pr.1.length pr.2.length = true ∧
        sumRefSpans chunks = pr.1.length ∧
        sumHypSpans chunks = pr.2.length)
      out.alignments (out.references.zip out.hypotheses) := by
  obtain ⟨-, -, -, rfl⟩ := processWordsCore_ok_elim (process_words_ok_elim h)
  set refT := rT reference
  set hypT := hT hypothesis
  have halign : (coreOutput refT hypT).alignments = corpusAligns refT hypT := rfl
  have hrefs : (coreOutput refT hypT).references = refT := rfl
  have hhyps : (coreOutput refT hypT).hypotheses = hypT := rfl
  rw [halign, hrefs, hhyps, corpusAligns, corpusPairs]
  exact aligns_partition_aux (refIds refT hypT) (hypIds refT hypT) refT hypT
    (refIds_lengths refT hypT) (hypIds_lengths refT hypT)

/-- C6: aligning a non-empty sequence with itself yields exactly one
`equal` chunk spanning the whole sequence on both sides, hits equal to
its length, and zero substitutions, deletions and insertions. -/
theorem processWordsCore_self_identity (X : List α) (hX : X ≠ []) :
    processWordsCore [X] [X] = .ok
      { references := [X]
        hypotheses := [X]
        alignments := [[⟨Tag.equal, 0, X.length, 0, X.length⟩]]
        wer := 0
        mer := 0
        wil := 0
        wip := 1
        hits := X.length
        substitutions := 0
        insertions := 0
        deletions := 0 } := by
  have hn : X.length ≠ 0 := by
    intro h
    exact hX (List.eq_nil_of_length_eq_zero h)
  have href := word2int_ref_spec [X] [X]
  rw [List.forall₂_cons_left_iff] at href
  obtain ⟨jds, rest, hPX₀, hrest, hgr⟩ := href
  rw [List.forall₂_nil_left_iff] at hrest
  subst hrest
  have hhyp := word2int_hyp_spec [X] [X]
  rw [List.forall₂_cons_left_iff] at hhyp
  obtain ⟨ids, rest₂, hPX, hrest₂, hgh⟩ := hhyp
  rw [List.forall₂_nil_left_iff] at hrest₂
  subst hrest₂
  have hji : ids = jds := forall₂_findId_unique hPX hPX₀
  subst hji
  have hlen : ids.length = X.length := hPX.length_eq.symm
  have hidsne : ids ≠ [] := by
    intro h
    rw [h] at hlen
    exact hn hlen.symm
  have hpairs : corpusPairs [X] [X] = [(ids, ids)] := by
    rw [corpusPairs, hgr, hgh]
    rfl
  have haligns : corpusAligns [X] [X] =
      [[⟨Tag.equal, 0, X.length, 0, X.length⟩]] := by
    rw [corpusAligns, hpairs]
    simp only [List.map_cons, List.map_nil]
    rw [sentenceChunks_self ids hidsne, hlen]
  have htH : totH [X] [X] = X.length := by
    rw [totH, haligns]
    simp [hitsOf]
  have htS : totS [X] [X] = 0 := by
    rw [totS, haligns]
    simp [subsOf]
  have htD : totD [X] [X] = 0 := by
    rw [totD, haligns]
    simp [delsOf]
  have htI : totI [X] [X] = 0 := by
    rw [totI, haligns]
    simp [insOf]
  have htR : totR [X] [X] = X.length := by
    rw [totR, hpairs]
    simp [hlen]
  have htP : totP [X] [X] = X.length := by
    rw [totP, hpairs]
    simp [hlen]
  have h1 : ([X] : List (List α)).any List.isEmpty = false := by
    rw [any_isEmpty_false_iff]
    intro s hs
    rw [List.mem_singleton] at hs
    subst hs
    exact hX
  have h3 : totH [X] [X] + totS [X] [X] + totD [X] [X] ≠ 0 := by
    rw [htH, htS, htD]
    omega
  rw [processWordsCore_eq_ok [X] [X] h1 rfl h3]
  have hwip : wipVal [X] [X] = 1 := by
    rw [wipVal, if_pos (by rw [htP]; omega), htH, htR, htP]
    rw [div_self (by exact_mod_cast hn : ((X.length : ℚ) ≠ 0))]
    norm_num
  congr 1
  simp only [coreOutput, htH, htS, htD, htI, haligns, hwip]
  norm_num

/-- C2: with arbitrarily large vocabularies — in particular more than
1,114,112 distinct tokens pooled over both corpora — the integer
encoding of `process_words` computes without overflow or truncation,
and when every reference token differs from every hypothesis token over
equal-sentence-count, equal-length corpora the returned wer is 1. -/
theorem processWordsCore_large_vocab_wer_one (refT hypT : List (List α))
    (hne : refT ≠ [])
    (hnon : ∀ s ∈ refT, s ≠ [])
    (hlen : List.Forall₂ (fun r h => r.length = h.length) refT hypT)
    (hdisj : ∀ u ∈ refT.flatten, ∀ v ∈ hypT.flatten, u ≠ v)
    (hvocab : 1114112 < ((refT.flatten ++ hypT.flatten).dedup).length) :
    werOf (processWordsCore refT hypT) = some 1 := by
  have h1 : refT.any List.isEmpty = false :=
    (any_isEmpty_false_iff refT).mpr hnon
  have h2 : refT.length = hypT.length := hlen.length_eq
  have hq := corpusPairs_spec refT hypT hlen hdisj
  have hnum : totS refT hypT + totD refT hypT + totI refT hypT =
      totR refT hypT := by
    rw [totS, totD, totI, corpusAligns, List.map_map, List.map_map,
      List.map_map, sum_map_add3, totR]
    congr 1
    apply List.map_congr_left
    intro p hp
    obtain ⟨hpl, hpd⟩ := hq p hp
    simp only [Function.comp]
    rw [sentenceChunks_cost p.1 p.2, levDist_disjoint p.1 p.2 hpd, ← hpl,
      max_self]
  have hden : totH refT hypT + totS refT hypT + totD refT hypT =
      totR refT hypT := tot_ref_conservation refT hypT
  have hR1 : 1 ≤ totR refT hypT := by
    rw [totR_eq_numTokens refT hypT h2]
    exact numTokens_pos refT hne hnon
  have h3 : totH refT hypT + totS refT hypT + totD refT hypT ≠ 0 := by
    omega
  rw [werOf, processWordsCore_eq_ok refT hypT h1 h2 h3]
  show some ((coreOutput refT hypT).wer) = some 1
  have hwer : (coreOutput refT hypT).wer = 1 := by
    show ((totS refT hypT + totD refT hypT + totI refT hypT : Nat) : ℚ) /
      ((totH refT hypT + totS refT hypT + totD refT hypT : Nat) : ℚ) = 1
    rw [hnum, hden, div_self]
    exact_mod_cast (by omega : totR refT hypT ≠ 0)
  rw [hwer]

/-- C3 (amended): an empty raw reference string, or a reference
sentence that is empty after the transform, makes `process_words` raise
a ValueError before any result is produced — in particular
`process_words("", "test")` raises; an entirely-empty reference corpus,
however, passes validation and instead fails later with
ZeroDivisionError. -/
theorem process_words_empty_reference_raises :
    (∀ (reference hypothesis : List String)
        (rT hT : List String → List (List String)),
        (reference.any fun t => t.length == 0) = true →
        process_words reference hypothesis rT hT =
          .error .emptyReferenceString) ∧
    (∀ (reference hypothesis : List String)
        (rT hT : List String → List (List String)),
        (reference.any fun t => t.length == 0) = false →
        (rT reference).any List.isEmpty = true →
        process_words reference hypothesis rT hT =
          .error .invalidReferenceTransform) ∧
    (∀ rT hT, process_words [""] ["test"] rT hT =
      .error .emptyReferenceString) := by
  refine ⟨?_, ?_, ?_⟩
  · intro reference hypothesis rT hT hb
    simp [process_words, hb]
  · intro reference hypothesis rT hT hb hre
    simp only [process_words, hb, Bool.false_eq_true, if_false]
    exact processWordsCore_invalid hre
  · intro rT hT
    rfl

/-- C3 counterexample: the entirely-empty reference corpus is accepted
by every validation check and reaches the measure computation, where it
fails with ZeroDivisionError rather than the claimed
EmptyReferenceError/ValueError. -/
theorem process_words_empty_corpus_zero_division :
    process_words [] [] (fun ss => ss.map fun s => [s])
      (fun ss => ss.map fun s => [s]) = .error .zeroDivision := by
  rfl

/-- C8 (amended): the `_word2int` mapping step does not reject
empty-string tokens: it assigns `""` an integer id like any other word,
preserves the corpus shape, and `process_words` completes normally
whenever its other validations pass. -/
theorem word2int_maps_empty_token (refT hypT : List (List String))
    (hmem : "" ∈ refT.flatten)
    (h1 : refT.any List.isEmpty = false)
    (h2 : refT.length = hypT.length) :
    (∃ i, findId (finalMap refT hypT) "" = some i) ∧
    (word2int refT hypT).1.map List.length = refT.map List.length ∧
    (word2int refT hypT).2.map List.length = hypT.map List.length ∧
    resultOk (processWordsCore refT hypT) = true := by
  refine ⟨?_, refIds_lengths refT hypT, hypIds_lengths refT hypT, ?_⟩
  · obtain ⟨s, hs, hin⟩ := List.mem_flatten.mp hmem
    obtain ⟨ids, _, hF⟩ := forall₂_mem_left (word2int_ref_spec refT hypT) hs
    obtain ⟨i, _, hPi⟩ := forall₂_mem_left hF hin
    exact ⟨i, hPi⟩
  · have hne : refT ≠ [] := by
      intro h
      subst h
      simp at hmem
    have hnon : ∀ s ∈ refT, s ≠ [] := (any_isEmpty_false_iff refT).mp h1
    have h3 : totH refT hypT + totS refT hypT + totD refT hypT ≠ 0 := by
      rw [tot_ref_conservation, totR_eq_numTokens refT hypT h2]
      have := numTokens_pos refT hne hnon
      omega
    rw [processWordsCore_eq_ok refT hypT h1 h2 h3]
    rfl

/-- C8 counterexample: with a transform producing an empty-string
token, `process_words` silently maps `""` to an id and returns a full
result instead of raising an EmptyTokenError/ValueError. -/
theorem process_words_empty_token_no_error :
    process_words ["x"] ["y"] (fun _ => [[""]]) (fun _ => [[""]]) =
      .ok
        { references := [[""]]
          hypotheses := [[""]]
          alignments := [[⟨Tag.equal, 0, 1, 0, 1⟩]]
          wer := 0
          mer := 0
          wil := 0
          wip := 1
          hits := 1
          substitutions := 0
          insertions := 0
          deletions := 0 } := by
  have h0 : process_words ["x"] ["y"] (fun _ => [[""]]) (fun _ => [[""]]) =
      processWordsCore [[""]] [[""]] := rfl
  have hH : totH [[""]] [[""]] = 1 := rfl
  have hS : totS [[""]] [[""]] = 0 := rfl
  have hD : totD [[""]] [[""]] = 0 := rfl
  have hI : totI [[""]] [[""]] = 0 := rfl
  have hR : totR [[""]] [[""]] = 1 := rfl
  have hP : totP [[""]] [[""]] = 1 := rfl
  have hwip : wipVal [[""]] [[""]] = 1 := by
    rw [wipVal, if_pos (by rw [hP] : 1 ≤ totP [[""]] [[""]]), hH, hR, hP]
    norm_num
  rw [h0, processWordsCore_eq_ok [[""]] [[""]] rfl rfl (by rw [hH, hS, hD]; omega)]
  congr 1
  simp only [coreOutput, hH, hS, hD, hI, hwip]
  norm_num
  rfl

/-- C9 (amended): for every input that passes validation and has a
non-empty reference corpus, H + S + D is at least 1 and the unguarded
wer division succeeds; the empty-list corpus, though accepted by
validation, does reach the division with a zero denominator. -/
theorem processWordsCore_division_safe (refT hypT : List (List α))
    (h1 : refT.any List.isEmpty = false)
    (h2 : refT.length = hypT.length)
    (hne : refT ≠ []) :
    1 ≤ totH refT hypT + totS refT hypT + totD refT hypT ∧
    resultOk (processWordsCore refT hypT) = true := by
  have hnon : ∀ s ∈ refT, s ≠ [] := (any_isEmpty_false_iff refT).mp h1
  have hpos := numTokens_pos refT hne hnon
  have h3 : 1 ≤ totH refT hypT + totS refT hypT + totD refT hypT := by
    rw [tot_ref_conservation, totR_eq_numTokens refT hypT h2]
    exact hpos
  refine ⟨h3, ?_⟩
  rw [processWordsCore_eq_ok refT hypT h1 h2 (by omega)]
  rfl

/-- C9 counterexample: the empty-list reference corpus passes the
empty-reference validation, yet H + S + D = 0 there and the wer
division divides by zero. -/
theorem processWordsCore_empty_corpus_divzero :
    processWordsCore ([] : List (List Nat)) [] = .error .zeroDivision := by
  rfl

theorem process_words_ab_eval :
    process_words ["a"] ["b"] splitT splitT = .ok wordsAB := by
  have h0 : process_words ["a"] ["b"] splitT splitT =
      processWordsCore [["a"]] [["b"]] := rfl
  have hH : totH [["a"]] [["b"]] = 0 := rfl
  have hS : totS [["a"]] [["b"]] = 1 := rfl
  have hD : totD [["a"]] [["b"]] = 0 := rfl
  have hI : totI [["a"]] [["b"]] = 0 := rfl
  have hR : totR [["a"]] [["b"]] = 1 := rfl
  have hP : totP [["a"]] [["b"]] = 1 := rfl
  have hwip : wipVal [["a"]] [["b"]] = 0 := by
    rw [wipVal, if_pos (by rw [hP] : 1 ≤ totP [["a"]] [["b"]]), hH, hR, hP]
    norm_num
  rw [h0, processWordsCore_eq_ok [["a"]] [["b"]] rfl rfl
    (by rw [hH, hS, hD]; omega)]
  congr 1
  simp only [coreOutput, wordsAB, hH, hS, hD, hI, hwip]
  norm_num
  rfl

theorem process_words_aa_eval :
    process_words ["a"] ["a"] splitT splitT = .ok wordsAA := by
  have h0 : process_words ["a"] ["a"] splitT splitT =
      processWordsCore [["a"]] [["a"]] := rfl
  have hH : totH [["a"]] [["a"]] = 1 := rfl
  have hS : totS [["a"]] [["a"]] = 0 := rfl
  have hD : totD [["a"]] [["a"]] = 0 := rfl
  have hI : totI [["a"]] [["a"]] = 0 := rfl
  have hR : totR [["a"]] [["a"]] = 1 := rfl
  have hP : totP [["a"]] [["a"]] = 1 := rfl
  have hwip : wipVal [["a"]] [["a"]] = 1 := by
    rw [wipVal, if_pos (by rw [hP] : 1 ≤ totP [["a"]] [["a"]]), hH, hR, hP]
    norm_num
  rw [h0, processWordsCore_eq_ok [["a"]] [["a"]] rfl rfl
    (by rw [hH, hS, hD]; omega)]
  congr 1
  simp only [coreOutput, wordsAA, hH, hS, hD, hI, hwip]
  norm_num
  rfl

theorem process_words_wer_mer_formula_witness :
    wordsAB.wer =
      ((wordsAB.substitutions + wordsAB.deletions +
        wordsAB.insertions : Nat) : ℚ) /
      ((wordsAB.hits + wordsAB.substitutions + wordsAB.deletions : Nat) : ℚ) ∧
    wordsAB.mer =
      ((wordsAB.substitutions + wordsAB.deletions +
        wordsAB.insertions : Nat) : ℚ) /
      ((wordsAB.hits + wordsAB.substitutions + wordsAB.deletions +
        wordsAB.insertions : Nat) : ℚ) ∧
    wordsAB.hits = ((wordsAB.alignments.map hitsOf).sum) ∧
    wordsAB.substitutions = ((wordsAB.alignments.map subsOf).sum) ∧
    wordsAB.deletions = ((wordsAB.alignments.map delsOf).sum) ∧
    wordsAB.insertions = ((wordsAB.alignments.map insOf).sum) :=
  process_words_wer_mer_formula ["a"] ["b"] splitT splitT wordsAB
    process_words_ab_eval

theorem process_words_wip_wil_formula_witness :
    (1 ≤ numTokens wordsAA.hypotheses →
      wordsAA.wip = ((wordsAA.hits : ℚ) / (numTokens wordsAA.references : ℚ)) *
        ((wordsAA.hits : ℚ) / (numTokens wordsAA.hypotheses : ℚ))) ∧
    (numTokens wordsAA.hypotheses = 0 → wordsAA.wip = 0) ∧
    wordsAA.wil = 1 - wordsAA.wip :=
  process_words_wip_wil_formula ["a"] ["a"] splitT splitT wordsAA
    process_words_aa_eval

theorem process_words_counts_conservation_witness :
    wordsAA.hits + wordsAA.substitutions + wordsAA.deletions =
      numTokens wordsAA.references ∧
    wordsAA.hits + wordsAA.substitutions + wordsAA.insertions =
      numTokens wordsAA.hypotheses :=
  process_words_counts_conservation ["a"] ["a"] splitT splitT wordsAA
    process_words_aa_eval

theorem process_words_measure_bounds_witness :
    0 ≤ wordsAB.wer ∧ 0 ≤ wordsAB.wip ∧ wordsAB.wip ≤ 1 ∧
      0 ≤ wordsAB.wil ∧ wordsAB.wil ≤ 1 ∧ wordsAB.mer ≤ wordsAB.wer :=
  process_words_measure_bounds ["a"] ["b"] splitT splitT wordsAB
    process_words_ab_eval

theorem process_words_alignments_partition_witness :
    List.Forall₂ (fun chunks pr =>
        chainedFrom 0 0 chunks pr.1.length pr.2.length = true ∧
        sumRefSpans chunks = pr.1.length ∧
        sumHypSpans chunks = pr.2.length)
      wordsAB.alignments (wordsAB.references.zip wordsAB.hypotheses) :=
  process_words_alignments_partition ["a"] ["b"] splitT splitT wordsAB
    process_words_ab_eval

theorem processWordsCore_self_identity_witness :
    processWordsCore [[5, 7]] [[5, 7]] = .ok
      { references := [[5, 7]]
        hypotheses := [[5, 7]]
        alignments := [[⟨Tag.equal, 0, 2, 0, 2⟩]]
        wer := 0
        mer := 0
        wil := 0
        wip := 1
        hits := 2
        substitutions := 0
        insertions := 0
        deletions := 0 } :=
  processWordsCore_self_identity [5, 7] (by simp)

theorem process_words_empty_reference_raises_witness :
    process_words [""] ["a"] splitT splitT = .error .emptyReferenceString ∧
    process_words ["a"] ["b"] (fun _ => [[]]) splitT =
      .error .invalidReferenceTransform :=
  ⟨process_words_empty_reference_raises.1 [""] ["a"] splitT splitT rfl,
    process_words_empty_reference_raises.2.1 ["a"] ["b"] (fun _ => [[]])
      splitT rfl rfl⟩

theorem word2int_maps_empty_token_witness :
    (∃ i, findId (finalMap [[""]] [["a"]]) "" = some i) ∧
    (word2int [[""]] [["a"]]).1.map List.length =
      ([[""]] : List (List String)).map List.length ∧
    (word2int [[""]] [["a"]]).2.map List.length =
      ([["a"]] : List (List String)).map List.length ∧
    resultOk (processWordsCore [[""]] [["a"]]) = true :=
  word2int_maps_empty_token [[""]] [["a"]] (by simp) rfl rfl

theorem processWordsCore_division_safe_witness :
    1 ≤ totH [[3]] [[4]] + totS [[3]] [[4]] + totD [[3]] [[4]] ∧
    resultOk (processWordsCore [[3]] [[4]]) = true :=
  processWordsCore_division_safe [[3]] [[4]] rfl rfl (by simp)

set_option maxRecDepth 4000 in
theorem processWordsCore_large_vocab_wer_one_witness :
    werOf (processWordsCore [List.range 600000]
      [List.range' 600000 600000]) = some 1 := by
  refine processWordsCore_large_vocab_wer_one [List.range 600000]
    [List.range' 600000 600000] (List.cons_ne_nil _ _) ?_ ?_ ?_ ?_
  · intro s hs
    rw [List.mem_singleton] at hs
    rw [hs]
    exact List.length_pos.mp (by rw [List.length_range]; omega)
  · refine List.Forall₂.cons ?_ List.Forall₂.nil
    simp [List.length_range, List.length_range']
  · intro u hu v hv
    simp only [List.flatten_cons, List.flatten_nil, List.append_nil,
      List.mem_range] at hu
    simp only [List.flatten_cons, List.flatten_nil, List.append_nil,
      List.mem_range'_1] at hv
    omega
  · have hL : (([List.range 600000] : List (List Nat)).flatten ++
        ([List.range' 600000 600000] : List (List Nat)).flatten) =
        List.range' 0 1200000 := by
      simp only [List.flatten_cons, List.flatten_nil, List.append_nil]
      rw [List.range_eq_range']
      have h := List.range'_append_1 0 600000 600000
      simpa using h
    rw [hL, List.dedup_eq_self.mpr (List.nodup_range' _ _)]
    simp [List.length_range']

end Jiwer
